import Mathlib

/-!
Verification of the Polkadot state-machine core: the overlayed-changes
transactional storage layer, the Ext externalities wrapper, the execute()
orchestration, and the validator-list codec.

Byte strings are modelled as lists of naturals; the HashMap layers are
modelled as association lists whose keys are unique (the hash-map
well-formedness invariant), with insert replacing the entry of an existing
key and removal deleting that entry.
-/

namespace PolkadotSM

/-- Byte strings: storage keys and values. -/
abbrev Bytes := List Nat

/-- Association-list lookup (models HashMap::get): the value of the first
entry whose key matches. -/
def assocLookup (key : Bytes) : List (Bytes × Bytes) → Option Bytes
  | [] => none
  | e :: rest => if e.1 = key then some e.2 else assocLookup key rest

/-- Association-list insert (models HashMap::insert): replace the entry of
an existing key, otherwise append a new entry. -/
def assocInsert (key val : Bytes) : List (Bytes × Bytes) → List (Bytes × Bytes)
  | [] => [(key, val)]
  | e :: rest => if e.1 = key then (key, val) :: rest else e :: assocInsert key val rest

/-- Association-list removal (models HashMap::remove): delete the entry of
the key, if present. -/
def assocErase (key : Bytes) : List (Bytes × Bytes) → List (Bytes × Bytes)
  | [] => []
  | e :: rest => if e.1 = key then rest else e :: assocErase key rest

/-- In-memory section of the state (struct MemoryState): a key-to-value
mapping, kept as an association list standing for the source HashMap. -/
structure MemoryState where
  storage : List (Bytes × Bytes)

/-- MemoryState::storage — point lookup in this layer. -/
def MemoryState.lookup (m : MemoryState) (key : Bytes) : Option Bytes :=
  assocLookup key m.storage

/-- MemoryState::set_storage — unconditional upsert into this layer. -/
def MemoryState.set_storage (m : MemoryState) (key val : Bytes) : MemoryState :=
  ⟨assocInsert key val m.storage⟩

/-- Updates to be committed to the state (enum Update): set storage of
object at given key — empty is deletion. -/
inductive Update where
  | Storage : Bytes → Bytes → Update

/-- One iteration of the loop in MemoryState::update: an empty value
removes the key, a non-empty value is inserted. -/
def MemoryState.applyUpdate (m : MemoryState) : Update → MemoryState
  | Update.Storage key val =>
    if val = [] then ⟨assocErase key m.storage⟩ else ⟨assocInsert key val m.storage⟩

/-- MemoryState::update — apply a sequence of updates in order. -/
def MemoryState.update (m : MemoryState) (changes : List Update) : MemoryState :=
  changes.foldl MemoryState.applyUpdate m

/-- The overlayed changes to state to be queried on top of the backend
(struct OverlayedChanges): a prospective and a committed layer. -/
structure OverlayedChanges where
  prospective : MemoryState
  committed : MemoryState

/-- OverlayedChanges::storage: look up in prospective, fall back to
committed, and report a resolved empty value as absent. -/
def OverlayedChanges.storage (o : OverlayedChanges) (key : Bytes) : Option Bytes :=
  ((o.prospective.lookup key).orElse (fun _ => o.committed.lookup key)).bind
    (fun v => if v = [] then none else some v)

/-- OverlayedChanges::set_storage: write into the prospective layer. -/
def OverlayedChanges.set_storage (o : OverlayedChanges) (key val : Bytes) : OverlayedChanges :=
  { o with prospective := o.prospective.set_storage key val }

/-- OverlayedChanges::discard_prospective: clear the prospective layer. -/
def OverlayedChanges.discard_prospective (o : OverlayedChanges) : OverlayedChanges :=
  { o with prospective := ⟨[]⟩ }

/-- OverlayedChanges::commit_prospective: drain every prospective entry and
apply it as an Update against the committed layer. -/
def OverlayedChanges.commit_prospective (o : OverlayedChanges) : OverlayedChanges :=
  { prospective := ⟨[]⟩,
    committed := o.committed.update (o.prospective.storage.map (fun e => Update.Storage e.1 e.2)) }

/-- Hash-map well-formedness: each layer of the overlay holds at most one
entry per key, as a Rust HashMap does by construction. -/
def OverlayedChanges.Wf (o : OverlayedChanges) : Prop :=
  (o.prospective.storage.map Prod.fst).Nodup ∧ (o.committed.storage.map Prod.fst).Nodup

instance (o : OverlayedChanges) : Decidable o.Wf := by
  unfold OverlayedChanges.Wf; infer_instance

/-- fn value_vec: append the little-endian variable-length encoding of
value to the initial bytes (push value % 256, divide by 256, while
value > 0). -/
def value_vec (value : Nat) (initial : Bytes) : Bytes :=
  if value > 0 then value_vec (value / 256) (initial ++ [value % 256]) else initial
termination_by value
decreasing_by exact Nat.div_lt_self (by omega) (by omega)

/-- The count decode inlined in Externalities::validators: iterate the
stored bytes in reverse (most-significant first) and fold
acc = acc * 256 + byte. -/
def decodeCount (bs : Bytes) : Nat :=
  bs.reverse.foldl (fun acc i => acc * 256 + i) 0

/-- The reserved validator-count key b"\x00validator_count". -/
def validatorCountKey : Bytes :=
  [0, 118, 97, 108, 105, 100, 97, 116, 111, 114, 95, 99, 111, 117, 110, 116]

/-- The reserved per-validator key base b"\x00validator". -/
def validatorKeyBase : Bytes :=
  [0, 118, 97, 108, 105, 100, 97, 116, 111, 114]

/-- The reserved code key b"\x00code". -/
def codeKey : Bytes :=
  [0, 99, 111, 100, 101]

/-- Rust collect over an iterator of Results: the list of values, or the
first error. -/
def collectE {ε α : Type} : List (Except ε α) → Except ε (List α)
  | [] => Except.ok []
  | x :: rest =>
    match x with
    | Except.error e => Except.error e
    | Except.ok v =>
      match collectE rest with
      | Except.error e => Except.error e
      | Except.ok vs => Except.ok (v :: vs)

/-- Externalities::validators, the default implementation built only from
the storage primitive: decode the count stored at the validator-count key,
then read the key value_vec(i, b"\x00validator") for each index i below the
count, collecting the results. -/
def validators {ε : Type} (stor : Bytes → Except ε Bytes) : Except ε (List Bytes) :=
  match stor validatorCountKey with
  | Except.error e => Except.error e
  | Except.ok bs =>
    collectE ((List.range (decodeCount bs)).map (fun i => stor (value_vec i validatorKeyBase)))

/-- Modelled from the spec: the Backend capability (backend.rs is not among
the sources) — storage lookup by exact key returning the value or a
backend error; absence surfaces as an empty value, never as an error. -/
def Backend (ε : Type) : Type := Bytes → Except ε Bytes

/-- struct Ext: the concrete Externalities wiring an overlay and a
read-only backend together for the duration of one call. -/
structure Ext (ε : Type) where
  overlay : OverlayedChanges
  backend : Backend ε

/-- Ext::storage: the overlay value if the overlay resolves one, otherwise
the backend lookup with its error propagated. -/
def Ext.storage {ε : Type} (e : Ext ε) (key : Bytes) : Except ε Bytes :=
  match e.overlay.storage key with
  | some x => Except.ok x
  | none => e.backend key

/-- Ext::set_storage: delegate to the overlay's write path. -/
def Ext.set_storage {ε : Type} (e : Ext ε) (key val : Bytes) : Ext ε :=
  { e with overlay := e.overlay.set_storage key val }

/-- A code executor's behaviour, as its interaction trace with the
Externalities capability: return output, fail with an executor error, read
a key (observing the storage result, errors included), or write a key. -/
inductive ExecProg (ε ξ : Type) where
  | done : Bytes → ExecProg ε ξ
  | fail : ξ → ExecProg ε ξ
  | getStorage : Bytes → (Except ε Bytes → ExecProg ε ξ) → ExecProg ε ξ
  | putStorage : Bytes → Bytes → ExecProg ε ξ → ExecProg ε ξ

/-- Run an executor program against an Ext: reads go through Ext::storage,
writes through Ext::set_storage. -/
def runExec {ε ξ : Type} : ExecProg ε ξ → Ext ε → Except ξ Bytes × Ext ε
  | ExecProg.done out, e => (Except.ok out, e)
  | ExecProg.fail err, e => (Except.error err, e)
  | ExecProg.getStorage key k, e => runExec (k (e.storage key)) e
  | ExecProg.putStorage key val p, e => runExec p (e.set_storage key val)

/-- Modelled from the spec: primitives::contract::CallData (the primitives
crate is not among the sources) — opaque call data handed to the executor. -/
abbrev CallData := List Nat

/-- CodeExecutor::call: given the code blob, the method name and the call
data, the executor's behaviour is some interaction program. -/
def CodeExecutor (ε ξ : Type) : Type := Bytes → String → CallData → ExecProg ε ξ

/-- The code load at the start of execute():
storage(b"\x00code").unwrap_or(empty) — both an error and an absent key
yield the empty blob. -/
def codeLoad {ε : Type} (e : Ext ε) : Bytes :=
  match e.storage codeKey with
  | Except.ok v => v
  | Except.error _ => []

/-- fn execute: build an Ext over the backend and overlay, load the code
blob, run the executor, then commit the prospective layer on success or
discard it on failure, returning the output or the executor's error. -/
def execute {ε ξ : Type} (backend : Backend ε) (overlay : OverlayedChanges)
    (exec : CodeExecutor ε ξ) (method : String) (callData : CallData) :
    Except ξ Bytes × OverlayedChanges :=
  let ext0 : Ext ε := ⟨overlay, backend⟩
  let code := codeLoad ext0
  let result := runExec (exec code method callData) ext0
  match result.1 with
  | Except.ok out => (Except.ok out, result.2.overlay.commit_prospective)
  | Except.error err => (Except.error err, result.2.overlay.discard_prospective)

/-- A sequence of writes made through OverlayedChanges::set_storage. -/
def applyWrites (o : OverlayedChanges) (ws : List (Bytes × Bytes)) : OverlayedChanges :=
  ws.foldl (fun acc w => acc.set_storage w.1 w.2) o

theorem assocLookup_insert_self (key val : Bytes) (l : List (Bytes × Bytes)) :
    assocLookup key (assocInsert key val l) = some val := by
  induction l with
  | nil => simp [assocInsert, assocLookup]
  | cons e rest ih =>
    by_cases h : e.1 = key
    · simp [assocInsert, h, assocLookup]
    · simp [assocInsert, h, assocLookup, ih]

theorem assocLookup_insert_ne (k key val : Bytes) (l : List (Bytes × Bytes)) (h : k ≠ key) :
    assocLookup k (assocInsert key val l) = assocLookup k l := by
  have hkk : ¬key = k := fun hk => h hk.symm
  induction l with
  | nil => simp [assocInsert, assocLookup, hkk]
  | cons e rest ih =>
    by_cases he : e.1 = key
    · subst he
      simp [assocInsert, assocLookup, hkk]
    · simp only [assocInsert, if_neg he, assocLookup]
      by_cases hek : e.1 = k
      · simp [hek]
      · simp [hek, ih]

theorem assocLookup_none_of_not_mem (k : Bytes) (l : List (Bytes × Bytes))
    (h : k ∉ l.map Prod.fst) : assocLookup k l = none := by
  induction l with
  | nil => rfl
  | cons e rest ih =>
    rw [List.map_cons, List.mem_cons, not_or] at h
    have hek : ¬e.1 = k := fun hk => h.1 hk.symm
    simp [assocLookup, hek, ih h.2]

theorem mem_of_assocLookup_some (k v : Bytes) (l : List (Bytes × Bytes))
    (h : assocLookup k l = some v) : k ∈ l.map Prod.fst := by
  induction l with
  | nil => simp [assocLookup] at h
  | cons e rest ih =>
    by_cases he : e.1 = k
    · simp [he]
    · simp only [assocLookup, if_neg he] at h
      simp [ih h]

theorem assocLookup_erase_self (key : Bytes) (l : List (Bytes × Bytes))
    (h : (l.map Prod.fst).Nodup) : assocLookup key (assocErase key l) = none := by
  induction l with
  | nil => rfl
  | cons e rest ih =>
    rw [List.map_cons, List.nodup_cons] at h
    by_cases he : e.1 = key
    · subst he
      have herase : assocErase e.1 (e :: rest) = rest := by simp [assocErase]
      rw [herase]
      exact assocLookup_none_of_not_mem _ _ h.1
    · simp [assocErase, he, assocLookup, ih h.2]

theorem assocLookup_erase_ne (k key : Bytes) (l : List (Bytes × Bytes)) (h : k ≠ key) :
    assocLookup k (assocErase key l) = assocLookup k l := by
  induction l with
  | nil => rfl
  | cons e rest ih =>
    by_cases he : e.1 = key
    · subst he
      have hek : ¬e.1 = k := fun hk => h hk.symm
      simp [assocErase, assocLookup, hek]
    · simp only [assocErase, if_neg he, assocLookup]
      by_cases hek : e.1 = k
      · simp [hek]
      · simp [hek, ih]

theorem mem_keys_insert (k key val : Bytes) (l : List (Bytes × Bytes))
    (h : k ∈ (assocInsert key val l).map Prod.fst) : k = key ∨ k ∈ l.map Prod.fst := by
  induction l with
  | nil => simpa [assocInsert] using h
  | cons e rest ih =>
    by_cases he : e.1 = key
    · simp only [assocInsert, if_pos he, List.map_cons, List.mem_cons] at h
      rcases h with h | h
      · exact Or.inl h
      · exact Or.inr (by simp [h])
    · simp only [assocInsert, if_neg he, List.map_cons, List.mem_cons] at h
      rcases h with h | h
      · exact Or.inr (by simp [h])
      · rcases ih h with h | h
        · exact Or.inl h
        · exact Or.inr (by simp [h])

theorem nodup_keys_insert (key val : Bytes) (l : List (Bytes × Bytes))
    (h : (l.map Prod.fst).Nodup) : ((assocInsert key val l).map Prod.fst).Nodup := by
  induction l with
  | nil => simp [assocInsert]
  | cons e rest ih =>
    rw [List.map_cons, List.nodup_cons] at h
    by_cases he : e.1 = key
    · subst he
      have hins : assocInsert e.1 val (e :: rest) = (e.1, val) :: rest := by
        simp [assocInsert]
      rw [hins, List.map_cons, List.nodup_cons]
      exact h
    · have hins : assocInsert key val (e :: rest) = e :: assocInsert key val rest := by
        simp [assocInsert, he]
      rw [hins, List.map_cons, List.nodup_cons]
      refine ⟨?_, ih h.2⟩
      intro hmem
      rcases mem_keys_insert _ _ _ _ hmem with hk | hk
      · exact he hk
      · exact h.1 hk

theorem sublist_assocErase (key : Bytes) (l : List (Bytes × Bytes)) :
    (assocErase key l).Sublist l := by
  induction l with
  | nil => exact List.Sublist.refl _
  | cons e rest ih =>
    by_cases he : e.1 = key
    · rw [show assocErase key (e :: rest) = rest from by simp [assocErase, he]]
      exact List.sublist_cons_self e rest
    · rw [show assocErase key (e :: rest) = e :: assocErase key rest from by
        simp [assocErase, he]]
      exact List.Sublist.cons₂ e ih

theorem nodup_keys_erase (key : Bytes) (l : List (Bytes × Bytes))
    (h : (l.map Prod.fst).Nodup) : ((assocErase key l).map Prod.fst).Nodup :=
  h.sublist ((sublist_assocErase key l).map Prod.fst)

theorem lookup_update_entries (k : Bytes) :
    ∀ (entries c : List (Bytes × Bytes)), (c.map Prod.fst).Nodup →
      (entries.map Prod.fst).Nodup →
      assocLookup k
          ((MemoryState.update ⟨c⟩ (entries.map (fun e => Update.Storage e.1 e.2))).storage) =
        match assocLookup k entries with
        | some v => if v = [] then none else some v
        | none => assocLookup k c := by
  intro entries
  induction entries with
  | nil => intro c _ _; rfl
  | cons e rest ih =>
    intro c hc he
    simp only [List.map_cons, List.nodup_cons] at he
    have hstep : MemoryState.update ⟨c⟩ ((e :: rest).map (fun e => Update.Storage e.1 e.2)) =
        MemoryState.update (MemoryState.applyUpdate ⟨c⟩ (Update.Storage e.1 e.2))
          (rest.map (fun e => Update.Storage e.1 e.2)) := rfl
    by_cases hval : e.2 = []
    · have happ : MemoryState.applyUpdate ⟨c⟩ (Update.Storage e.1 e.2) =
          ⟨assocErase e.1 c⟩ := by simp [MemoryState.applyUpdate, hval]
      rw [hstep, happ, ih _ (nodup_keys_erase _ _ hc) he.2]
      by_cases hk : e.1 = k
      · subst hk
        have hrest : assocLookup e.1 rest = none :=
          assocLookup_none_of_not_mem _ _ he.1
        simp [assocLookup, hrest, assocLookup_erase_self _ _ hc, hval]
      · simp only [assocLookup, if_neg hk]
        cases hr : assocLookup k rest with
        | some v => rfl
        | none => simp [assocLookup_erase_ne _ _ _ (fun hke => hk hke.symm)]
    · have happ : MemoryState.applyUpdate ⟨c⟩ (Update.Storage e.1 e.2) =
          ⟨assocInsert e.1 e.2 c⟩ := by simp [MemoryState.applyUpdate, hval]
      rw [hstep, happ, ih _ (nodup_keys_insert _ _ _ hc) he.2]
      by_cases hk : e.1 = k
      · subst hk
        have hrest : assocLookup e.1 rest = none :=
          assocLookup_none_of_not_mem _ _ he.1
        simp [assocLookup, hrest, assocLookup_insert_self, hval]
      · simp only [assocLookup, if_neg hk]
        cases hr : assocLookup k rest with
        | some v => rfl
        | none => simp [assocLookup_insert_ne _ _ _ _ (fun hke => hk hke.symm)]

theorem commit_committed_lookup (o : OverlayedChanges) (hWf : o.Wf) (k : Bytes) :
    (o.commit_prospective).committed.lookup k =
      match o.prospective.lookup k with
      | some v => if v = [] then none else some v
      | none => o.committed.lookup k := by
  have h := lookup_update_entries k o.prospective.storage o.committed.storage hWf.2 hWf.1
  exact h

theorem runExec_backend {ε ξ : Type} (p : ExecProg ε ξ) (e : Ext ε) :
    (runExec p e).2.backend = e.backend := by
  induction p generalizing e with
  | done out => rfl
  | fail err => rfl
  | getStorage key k ih => exact ih _ e
  | putStorage key val p ih =>
    rw [runExec, ih]
    rfl

theorem runExec_committed {ε ξ : Type} (p : ExecProg ε ξ) (e : Ext ε) :
    (runExec p e).2.overlay.committed = e.overlay.committed := by
  induction p generalizing e with
  | done out => rfl
  | fail err => rfl
  | getStorage key k ih => exact ih _ e
  | putStorage key val p ih =>
    rw [runExec, ih]
    rfl

theorem applyWrites_committed (ws : List (Bytes × Bytes)) :
    ∀ (o : OverlayedChanges), (applyWrites o ws).committed = o.committed := by
  induction ws with
  | nil => intro o; rfl
  | cons w rest ih =>
    intro o
    exact ih _

theorem value_vec_append (v : Nat) : ∀ (initial : Bytes),
    value_vec v initial = initial ++ value_vec v [] := by
  induction v using Nat.strong_induction_on with
  | _ v ih =>
    intro initial
    by_cases hv : v > 0
    · have hlt : v / 256 < v := Nat.div_lt_self hv (by omega)
      rw [value_vec, if_pos hv, ih _ hlt (initial ++ [v % 256])]
      rw [show value_vec v [] = value_vec (v / 256) ([] ++ [v % 256]) from by
        rw [value_vec, if_pos hv]]
      rw [ih _ hlt ([] ++ [v % 256])]
      simp
    · rw [value_vec, if_neg hv, value_vec, if_neg hv]
      simp

theorem decodeCount_cons (b : Nat) (rest : Bytes) :
    decodeCount (b :: rest) = decodeCount rest * 256 + b := by
  simp [decodeCount, List.foldl_append]

theorem decode_value_vec (v : Nat) : decodeCount (value_vec v []) = v := by
  induction v using Nat.strong_induction_on with
  | _ v ih =>
    by_cases hv : v > 0
    · have hlt : v / 256 < v := Nat.div_lt_self hv (by omega)
      rw [value_vec, if_pos hv, value_vec_append, List.nil_append, List.singleton_append,
        decodeCount_cons, ih _ hlt]
      omega
    · rw [value_vec, if_neg hv]
      have hz : v = 0 := by omega
      simp [decodeCount, hz]

theorem collectE_map_ok {ε : Type} (g : Nat → Except ε Bytes) (f : Nat → Bytes) :
    ∀ l : List Nat, (∀ i ∈ l, g i = Except.ok (f i)) →
      collectE (l.map g) = Except.ok (l.map f) := by
  intro l
  induction l with
  | nil => intro _; rfl
  | cons a rest ih =>
    intro h
    have ha := h a (List.mem_cons_self a rest)
    have hr := ih (fun i hi => h i (List.mem_cons_of_mem a hi))
    simp [collectE, ha, hr]

theorem collectE_all_ok {ε α : Type} (l : List (Except ε α))
    (h : ∀ x ∈ l, ∃ v, x = Except.ok v) : ∃ vs, collectE l = Except.ok vs := by
  induction l with
  | nil => exact ⟨[], rfl⟩
  | cons x rest ih =>
    obtain ⟨v, hv⟩ := h x (List.mem_cons_self x rest)
    obtain ⟨vs, hvs⟩ := ih (fun y hy => h y (List.mem_cons_of_mem x hy))
    exact ⟨v :: vs, by simp [collectE, hv, hvs]⟩

theorem collectE_cons_error {ε α : Type} (e : ε) (rest : List (Except ε α)) :
    collectE (Except.error e :: rest) = Except.error e := rfl

theorem collectE_cons_ok {ε α : Type} (v : α) (rest : List (Except ε α)) :
    collectE (Except.ok v :: rest) =
      match collectE rest with
      | Except.error e => Except.error e
      | Except.ok vs => Except.ok (v :: vs) := rfl

theorem collectE_append_error_left {ε α : Type} (l1 l2 : List (Except ε α)) (e : ε)
    (h : collectE l1 = Except.error e) : collectE (l1 ++ l2) = Except.error e := by
  induction l1 with
  | nil => simp [collectE] at h
  | cons x rest ih =>
    cases x with
    | error e₁ =>
      rw [collectE_cons_error] at h
      cases h
      rw [List.cons_append, collectE_cons_error]
    | ok v =>
      rw [collectE_cons_ok] at h
      rw [List.cons_append, collectE_cons_ok]
      cases hr : collectE rest with
      | error e₁ =>
        rw [hr] at h
        have he : e₁ = e := by simpa using h
        subst he
        rw [ih hr]
      | ok vs =>
        rw [hr] at h
        simp at h

theorem collectE_append_ok_left {ε α : Type} (l1 l2 : List (Except ε α)) (vs : List α)
    (h : collectE l1 = Except.ok vs) :
    collectE (l1 ++ l2) =
      match collectE l2 with
      | Except.error e => Except.error e
      | Except.ok ws => Except.ok (vs ++ ws) := by
  induction l1 generalizing vs with
  | nil =>
    simp only [collectE] at h
    cases h
    simp only [List.nil_append]
    cases collectE l2 <;> rfl
  | cons x rest ih =>
    cases x with
    | error e₁ =>
      rw [collectE_cons_error] at h
      simp at h
    | ok v =>
      rw [collectE_cons_ok] at h
      rw [List.cons_append, collectE_cons_ok]
      cases hr : collectE rest with
      | error e₁ =>
        rw [hr] at h
        simp at h
      | ok ws =>
        rw [hr] at h
        have hws : v :: ws = vs := by simpa using h
        subst hws
        rw [ih ws hr]
        cases collectE l2 <;> simp

theorem collect_range_error {ε : Type} (g : Nat → Except ε Bytes) :
    ∀ (n i : Nat) (e : ε), i < n → g i = Except.error e →
      (∀ j, j < i → ∃ v, g j = Except.ok v) →
      collectE ((List.range n).map g) = Except.error e := by
  intro n
  induction n with
  | zero => intro i e hi _ _; omega
  | succ m ih =>
    intro i e hi hgi hok
    rw [List.range_succ, List.map_append]
    rcases Nat.lt_or_ge i m with him | him
    · exact collectE_append_error_left _ _ _ (ih i e him hgi hok)
    · have him' : i = m := by omega
      subst him'
      obtain ⟨vs, hvs⟩ := collectE_all_ok ((List.range i).map g) (by
        intro x hx
        rw [List.mem_map] at hx
        obtain ⟨j, hj, hx⟩ := hx
        rw [List.mem_range] at hj
        obtain ⟨v, hv⟩ := hok j hj
        exact ⟨v, by rw [← hx, hv]⟩)
      rw [collectE_append_ok_left _ _ _ hvs]
      simp [collectE, hgi]

/-- C2: OverlayedChanges::storage resolves the key through the prospective
layer first, falls back to the committed layer only when prospective has no
entry, and reports a resolved empty value as absent; it never returns the
empty value. -/
theorem overlay_read_layering (o : OverlayedChanges) (k : Bytes) :
    (∀ v, o.prospective.lookup k = some v →
        o.storage k = if v = [] then none else some v)
    ∧ (o.prospective.lookup k = none →
        o.storage k =
          match o.committed.lookup k with
          | some v => if v = [] then none else some v
          | none => none)
    ∧ o.storage k ≠ some [] := by
  refine ⟨?_, ?_, ?_⟩
  · intro v hv
    unfold OverlayedChanges.storage
    rw [hv]
    rfl
  · intro hnone
    unfold OverlayedChanges.storage
    rw [hnone]
    cases o.committed.lookup k with
    | none => rfl
    | some v => rfl
  · unfold OverlayedChanges.storage
    cases (o.prospective.lookup k).orElse (fun _ => o.committed.lookup k) with
    | none => simp
    | some v =>
      by_cases hv : v = [] <;> simp [Option.bind, hv]

/-- C2 witness: on a concrete overlay whose prospective layer binds the key,
the read resolves through the prospective layer. -/
theorem overlay_read_layering_witness :
    OverlayedChanges.storage ⟨⟨[([1], [2, 3])]⟩, ⟨[([1], [9])]⟩⟩ [1] =
      if ([2, 3] : Bytes) = [] then none else some [2, 3] :=
  (overlay_read_layering ⟨⟨[([1], [2, 3])]⟩, ⟨[([1], [9])]⟩⟩ [1]).1 [2, 3] rfl

/-- C4: rollback soundness — starting from an overlay whose prospective
layer is empty (the start of a prospective epoch), any sequence of
set_storage writes followed by discard_prospective leaves every read
exactly as it was before the writes. -/
theorem rollback_soundness (o : OverlayedChanges) (ws : List (Bytes × Bytes))
    (h : o.prospective.storage = []) (k : Bytes) :
    ((applyWrites o ws).discard_prospective).storage k = o.storage k := by
  have hc : ((applyWrites o ws).discard_prospective).committed = o.committed := by
    have h1 : ((applyWrites o ws).discard_prospective).committed =
        (applyWrites o ws).committed := rfl
    rw [h1, applyWrites_committed]
  unfold OverlayedChanges.storage
  rw [hc]
  rw [show ((applyWrites o ws).discard_prospective).prospective.lookup k = none from rfl]
  rw [show o.prospective.lookup k = none from by
    unfold MemoryState.lookup
    rw [h]
    rfl]

/-- C4 witness: a concrete write sequence over a clean prospective layer is
fully rolled back by discard_prospective. -/
theorem rollback_soundness_witness :
    ((applyWrites ⟨⟨[]⟩, ⟨[([1], [2])]⟩⟩ [([1], [9]), ([3], [4])]).discard_prospective).storage [1] =
      OverlayedChanges.storage ⟨⟨[]⟩, ⟨[([1], [2])]⟩⟩ [1] :=
  rollback_soundness ⟨⟨[]⟩, ⟨[([1], [2])]⟩⟩ [([1], [9]), ([3], [4])] rfl [1]

/-- C5: commit_prospective is read-transparent — every read is unchanged,
the prospective layer is left empty, the committed layer reflects the
formerly prospective entries (empty values deleting their keys), and an
immediately following discard_prospective changes no read. -/
theorem commit_read_transparent (o : OverlayedChanges) (hWf : o.Wf) :
    (∀ k, (o.commit_prospective).storage k = o.storage k)
    ∧ (o.commit_prospective).prospective.storage = []
    ∧ (∀ k, (o.commit_prospective).committed.lookup k =
        match o.prospective.lookup k with
        | some v => if v = [] then none else some v
        | none => o.committed.lookup k)
    ∧ ∀ k, ((o.commit_prospective).discard_prospective).storage k =
        (o.commit_prospective).storage k := by
  have hcl := commit_committed_lookup o hWf
  refine ⟨?_, rfl, hcl, fun k => rfl⟩
  intro k
  unfold OverlayedChanges.storage
  rw [show (o.commit_prospective).prospective.lookup k = none from rfl, hcl k]
  cases hp : o.prospective.lookup k with
  | none => rfl
  | some v =>
    by_cases hv : v = [] <;> simp [hv, Option.orElse]

/-- C5 witness: committing a concrete overlay leaves a concrete read
unchanged. -/
theorem commit_read_transparent_witness :
    (OverlayedChanges.commit_prospective ⟨⟨[([1], [7])]⟩, ⟨[([2], [5])]⟩⟩).storage [2] =
      OverlayedChanges.storage ⟨⟨[([1], [7])]⟩, ⟨[([2], [5])]⟩⟩ [2] :=
  (commit_read_transparent ⟨⟨[([1], [7])]⟩, ⟨[([2], [5])]⟩⟩ (by decide)).1 [2]

/-- C6: deletion tombstones are never materialized — writing the empty
value for a key that has an entry in the committed layer and then
committing removes the key from the committed layer entirely: afterwards
the committed map holds no entry for it and the overlay read reports it
absent. -/
theorem delete_commits_removal (o : OverlayedChanges) (hWf : o.Wf) (k v : Bytes)
    (_hmem : o.committed.lookup k = some v) :
    ((o.set_storage k []).commit_prospective).committed.lookup k = none
    ∧ ((o.set_storage k []).commit_prospective).storage k = none := by
  have hWf' : (o.set_storage k []).Wf :=
    ⟨nodup_keys_insert k [] o.prospective.storage hWf.1, hWf.2⟩
  have hpl : (o.set_storage k []).prospective.lookup k = some [] :=
    assocLookup_insert_self k [] o.prospective.storage
  have hcl := commit_committed_lookup (o.set_storage k []) hWf' k
  rw [hpl] at hcl
  have hnone : ((o.set_storage k []).commit_prospective).committed.lookup k = none := by
    rw [hcl]
    simp
  refine ⟨hnone, ?_⟩
  unfold OverlayedChanges.storage
  rw [show ((o.set_storage k []).commit_prospective).prospective.lookup k = none from rfl]
  rw [hnone]
  rfl

/-- C6 witness: deleting a concretely committed key and committing removes
its entry. -/
theorem delete_commits_removal_witness :
    ((OverlayedChanges.set_storage ⟨⟨[]⟩, ⟨[([4], [8])]⟩⟩ [4] []).commit_prospective).committed.lookup [4] = none
    ∧ ((OverlayedChanges.set_storage ⟨⟨[]⟩, ⟨[([4], [8])]⟩⟩ [4] []).commit_prospective).storage [4] = none :=
  delete_commits_removal ⟨⟨[]⟩, ⟨[([4], [8])]⟩⟩ (by decide) [4] [8] rfl

/-- C7: a deletion recorded in the overlay does not mask a backend value —
whenever the overlay layers resolve a key to the empty byte string, the
overlay read yields none and Ext::storage returns exactly the backend's
result for that key. -/
theorem tombstone_masks_nothing {ε : Type} (e : Ext ε) (k : Bytes)
    (h : (e.overlay.prospective.lookup k).orElse
        (fun _ => e.overlay.committed.lookup k) = some []) :
    Ext.storage e k = e.backend k := by
  have hov : e.overlay.storage k = none := by
    unfold OverlayedChanges.storage
    rw [h]
    rfl
  unfold Ext.storage
  rw [hov]

/-- C7 witness: a concrete prospective tombstone falls through to the
backend value. -/
theorem tombstone_masks_nothing_witness :
    Ext.storage ⟨⟨⟨[([3], [])]⟩, ⟨[]⟩⟩, fun _ => (Except.ok [9] : Except Nat Bytes)⟩ [3] =
      (fun _ => (Except.ok [9] : Except Nat Bytes)) [3] :=
  tombstone_masks_nothing ⟨⟨⟨[([3], [])]⟩, ⟨[]⟩⟩, fun _ => (Except.ok [9] : Except Nat Bytes)⟩
    [3] rfl

/-- C10: writes never touch the committed layer or the backend —
OverlayedChanges::set_storage changes only the prospective layer,
Ext::set_storage delegates to it leaving the backend reference unchanged,
and no sequence of executor interactions through Ext changes the backend
or the committed layer. -/
theorem writes_only_prospective {ε ξ : Type} :
    (∀ (o : OverlayedChanges) (k v : Bytes),
        (o.set_storage k v).committed = o.committed
          ∧ (o.set_storage k v).prospective = o.prospective.set_storage k v)
    ∧ (∀ (e : Ext ε) (k v : Bytes),
        Ext.set_storage e k v = ⟨e.overlay.set_storage k v, e.backend⟩)
    ∧ ∀ (p : ExecProg ε ξ) (e : Ext ε),
        (runExec p e).2.backend = e.backend
          ∧ (runExec p e).2.overlay.committed = e.overlay.committed :=
  ⟨fun _ _ _ => ⟨rfl, rfl⟩, fun _ _ _ => rfl,
    fun p e => ⟨runExec_backend p e, runExec_committed p e⟩⟩

theorem execute_eq {ε ξ : Type} (b : Backend ε) (o : OverlayedChanges)
    (exec : CodeExecutor ε ξ) (method : String) (cd : CallData) :
    execute b o exec method cd =
      match (runExec (exec (codeLoad ⟨o, b⟩) method cd) ⟨o, b⟩).1 with
      | Except.ok out =>
        (Except.ok out,
          (runExec (exec (codeLoad ⟨o, b⟩) method cd) ⟨o, b⟩).2.overlay.commit_prospective)
      | Except.error err =>
        (Except.error err,
          (runExec (exec (codeLoad ⟨o, b⟩) method cd) ⟨o, b⟩).2.overlay.discard_prospective) :=
  rfl

/-- C1 counterexample: with an overlay whose prospective layer already
holds an entry when execute() is entered, a failing executor makes
execute() wipe that pre-existing prospective entry, so the overlay state
after the call differs from the overlay state before the call — the claim
is false as universally stated. -/
theorem execute_atomic_counterexample :
    (execute (fun _ => (Except.ok [] : Except Nat Bytes)) ⟨⟨[([0], [1])]⟩, ⟨[]⟩⟩
        (fun _ _ _ => ExecProg.fail 7) "m" []).1 = Except.error 7
    ∧ (execute (fun _ => (Except.ok [] : Except Nat Bytes)) ⟨⟨[([0], [1])]⟩, ⟨[]⟩⟩
        (fun _ _ _ => ExecProg.fail 7) "m" []).2.storage [0] = none
    ∧ OverlayedChanges.storage ⟨⟨[([0], [1])]⟩, ⟨[]⟩⟩ [0] = some [1] :=
  ⟨rfl, rfl, rfl⟩

/-- C1 (amended): provided the prospective layer is empty when execute()
is entered, a failing executor leaves every overlay read exactly as it was
before the call and execute() returns the executor's error; a succeeding
executor makes execute() commit the prospective layer and return the
executor's output. -/
theorem execute_atomic {ε ξ : Type} (b : Backend ε) (o : OverlayedChanges)
    (exec : CodeExecutor ε ξ) (method : String) (cd : CallData)
    (h : o.prospective.storage = []) :
    (∀ err, (runExec (exec (codeLoad ⟨o, b⟩) method cd) ⟨o, b⟩).1 = Except.error err →
        (execute b o exec method cd).1 = Except.error err
          ∧ ∀ k, (execute b o exec method cd).2.storage k = o.storage k)
    ∧ ∀ out, (runExec (exec (codeLoad ⟨o, b⟩) method cd) ⟨o, b⟩).1 = Except.ok out →
        execute b o exec method cd =
          (Except.ok out,
            (runExec (exec (codeLoad ⟨o, b⟩) method cd) ⟨o, b⟩).2.overlay.commit_prospective) := by
  constructor
  · intro err herr
    rw [execute_eq, herr]
    refine ⟨rfl, ?_⟩
    intro k
    unfold OverlayedChanges.storage
    rw [show ((runExec (exec (codeLoad ⟨o, b⟩) method cd)
        ⟨o, b⟩).2.overlay.discard_prospective).prospective.lookup k = none from rfl]
    rw [show ((runExec (exec (codeLoad ⟨o, b⟩) method cd)
          ⟨o, b⟩).2.overlay.discard_prospective).committed =
        (runExec (exec (codeLoad ⟨o, b⟩) method cd) ⟨o, b⟩).2.overlay.committed from rfl]
    rw [runExec_committed]
    rw [show o.prospective.lookup k = none from by
      unfold MemoryState.lookup
      rw [h]
      rfl]
  · intro out hout
    rw [execute_eq, hout]

/-- C1 witness: a concrete failing call over a clean overlay returns the
executor's error and leaves a concrete committed read unchanged. -/
theorem execute_atomic_witness :
    (execute (fun _ => (Except.ok [] : Except Nat Bytes)) ⟨⟨[]⟩, ⟨[([5], [6])]⟩⟩
        (fun _ _ _ => ExecProg.fail 7) "m" []).2.storage [5] =
      OverlayedChanges.storage ⟨⟨[]⟩, ⟨[([5], [6])]⟩⟩ [5] :=
  ((execute_atomic (fun _ => (Except.ok [] : Except Nat Bytes)) ⟨⟨[]⟩, ⟨[([5], [6])]⟩⟩
      (fun _ _ _ => ExecProg.fail 7) "m" [] rfl).1 7 rfl).2 [5]

/-- C3 counterexample: a backend that fails every lookup makes the initial
code-blob load fail, yet execute() silently replaces the failed load with
the empty code blob and returns the executor's success — the backend error
on the code-load lookup is not forwarded to the caller, so the claim is
false as stated. -/
theorem error_swallowed_counterexample :
    (execute (fun _ => (Except.error 3 : Except Nat Bytes)) ⟨⟨[]⟩, ⟨[]⟩⟩
        (fun _ _ _ => (ExecProg.done [5] : ExecProg Nat Nat)) "m" []).1 = Except.ok [5]
    ∧ (fun _ => (Except.error 3 : Except Nat Bytes)) codeKey = Except.error 3
    ∧ codeLoad ⟨⟨⟨[]⟩, ⟨[]⟩⟩, fun _ => (Except.error 3 : Except Nat Bytes)⟩ = [] :=
  ⟨rfl, rfl, rfl⟩

/-- C3 (amended): an executor failure is forwarded unchanged to the caller
of execute(); a backend failure on a storage lookup not covered by the
overlay is surfaced to the executor through Ext::storage rather than
returned directly by execute(); and on the initial code-blob load both
absence and a backend lookup error are silently replaced by the empty
code blob. -/
theorem error_forwarding {ε ξ : Type} (b : Backend ε) (o : OverlayedChanges)
    (exec : CodeExecutor ε ξ) (method : String) (cd : CallData) :
    (∀ err, (runExec (exec (codeLoad ⟨o, b⟩) method cd) ⟨o, b⟩).1 = Except.error err →
        (execute b o exec method cd).1 = Except.error err)
    ∧ (∀ (k : Bytes) (e : ε), o.storage k = none → b k = Except.error e →
        Ext.storage ⟨o, b⟩ k = Except.error e)
    ∧ ∀ e : ε, o.storage codeKey = none → b codeKey = Except.error e →
        codeLoad ⟨o, b⟩ = [] := by
  refine ⟨?_, ?_, ?_⟩
  · intro err herr
    rw [execute_eq, herr]
  · intro k e hok hbk
    unfold Ext.storage
    rw [show (⟨o, b⟩ : Ext ε).overlay.storage k = none from hok]
    exact hbk
  · intro e hok hbe
    unfold codeLoad
    rw [show Ext.storage ⟨o, b⟩ codeKey = Except.error e from by
      unfold Ext.storage
      rw [show (⟨o, b⟩ : Ext ε).overlay.storage codeKey = none from hok]
      exact hbe]

/-- C3 witness: on an empty overlay over an always-failing backend, the
code load concretely resolves to the empty blob. -/
theorem error_forwarding_witness :
    codeLoad ⟨⟨⟨[]⟩, ⟨[]⟩⟩, fun _ => (Except.error 4 : Except Nat Bytes)⟩ = [] :=
  (error_forwarding (fun _ => (Except.error 4 : Except Nat Bytes)) ⟨⟨[]⟩, ⟨[]⟩⟩
      (fun _ _ _ => (ExecProg.done [] : ExecProg Nat Nat)) "m" []).2.2 4 rfl rfl

/-- C9: validator-count codec round-trip — encoding any integer with the
little-endian variable-length scheme of value_vec and decoding with the
most-significant-first fold of validators() yields the integer back; in
particular this holds for 0, 1, 255, 256, 65535 and 65536. -/
theorem validator_count_round_trip :
    (∀ i : Nat, decodeCount (value_vec i []) = i)
    ∧ ∀ i ∈ [0, 1, 255, 256, 65535, 65536], decodeCount (value_vec i []) = i :=
  ⟨decode_value_vec, fun i _ => decode_value_vec i⟩

/-- C9 witness: the round-trip at the concrete input 65536. -/
theorem validator_count_round_trip_witness :
    decodeCount (value_vec 65536 []) = 65536 :=
  validator_count_round_trip.2 65536 (by simp)

/-- C8: validators() decodes the byte string at the validator-count key by
folding its bytes most-significant-first as acc = acc * 256 + byte (the
empty value decoding to 0), then reads the key value_vec(i, validator) for
each index i below the count — index 0 using exactly the base key with no
suffix — returning the values in index order, and any individual read
failure aborts the whole operation propagating that error. -/
theorem validators_spec {ε : Type} (stor : Bytes → Except ε Bytes) :
    (∀ e, stor validatorCountKey = Except.error e → validators stor = Except.error e)
    ∧ (∀ bs, stor validatorCountKey = Except.ok bs →
        (∀ f : Nat → Bytes,
            (∀ i, i < decodeCount bs → stor (value_vec i validatorKeyBase) = Except.ok (f i)) →
            validators stor = Except.ok ((List.range (decodeCount bs)).map f))
          ∧ ∀ i e, i < decodeCount bs →
              stor (value_vec i validatorKeyBase) = Except.error e →
              (∀ j, j < i → ∃ v, stor (value_vec j validatorKeyBase) = Except.ok v) →
              validators stor = Except.error e)
    ∧ decodeCount [] = 0
    ∧ (∀ bs : Bytes, decodeCount bs = bs.foldr (fun b acc => acc * 256 + b) 0)
    ∧ value_vec 0 validatorKeyBase = validatorKeyBase := by
  refine ⟨?_, ?_, rfl, ?_, ?_⟩
  · intro e he
    unfold validators
    rw [he]
  · intro bs hbs
    constructor
    · intro f hf
      unfold validators
      rw [hbs]
      exact collectE_map_ok _ f _ (fun i hi => hf i (List.mem_range.mp hi))
    · intro i e hi hgi hok
      unfold validators
      rw [hbs]
      exact collect_range_error _ _ i e hi hgi hok
  · intro bs
    simp [decodeCount, List.foldl_reverse]
  · rw [value_vec]
    simp

/-- C8 witness: a concrete store with count byte 1 yields the single value
read at exactly the base validator key. -/
theorem validators_spec_witness :
    validators (fun key =>
        if key = validatorCountKey then (Except.ok [1] : Except Nat Bytes)
        else Except.ok [102]) =
      Except.ok ((List.range (decodeCount [1])).map (fun _ => [102])) :=
  ((validators_spec (fun key =>
      if key = validatorCountKey then (Except.ok [1] : Except Nat Bytes)
      else Except.ok [102])).2.1 [1] rfl).1 (fun _ => [102]) (by
    intro i hi
    have h1 : decodeCount [1] = 1 := rfl
    rw [h1] at hi
    have hi0 : i = 0 := by omega
    subst hi0
    rw [show value_vec 0 validatorKeyBase = validatorKeyBase from by rw [value_vec]; simp]
    rfl)

end PolkadotSM
